import Mathlib

/-
Verification of the ifql execution-core sources against their specification.

Shallow embedding of three source files:
  * functions/stddev.go        — the stddev aggregate (Welford accumulator);
  * query/execute/source.go    — the storage source (Run / Next loop);
  * functions (toHTTP file)    — the toHTTP sink (ReadArgs, UnmarshalJSON,
                                 Process line-protocol encoding and send).

Go float64 arithmetic on the accumulator is idealized as exact rational
arithmetic (only + - * / occur); the single square root at the output
boundary is taken in ℝ.  time.Time / time.Duration are Int nanoseconds.
Go slices are lists; Go append is list concatenation of the appended
element to the (possibly truncated) receiver, matching the final value of
every slice variable in the translated code.
-/

namespace Ifql

deriving instance DecidableEq for Except

/-! ## functions/stddev.go -/

/-- Accumulator state of the stddev aggregate: fields n, m2, mean of
StddevAgg, float64 in Go, idealized as ℚ. -/
structure StddevAgg where
  n : ℚ
  m2 : ℚ
  mean : ℚ
deriving DecidableEq

/-- StddevAgg.reset: zeroes the accumulator (the state NewFloatAgg and
friends hand to the engine for a fresh partition). -/
def StddevAgg.reset : StddevAgg := ⟨0, 0, 0⟩

/-- One iteration of the loop body of StddevAgg.DoFloat:
n++; delta = v - mean; mean += delta/n; delta2 = v - mean; m2 += delta*delta2. -/
def StddevAgg.step (a : StddevAgg) (v : ℚ) : StddevAgg :=
  let n := a.n + 1
  let delta := v - a.mean
  let mean := a.mean + delta / n
  let delta2 := v - mean
  ⟨n, a.m2 + delta * delta2, mean⟩

/-- StddevAgg.DoFloat: folds the value slice through the Welford loop. -/
def StddevAgg.DoFloat (a : StddevAgg) (vs : List ℚ) : StddevAgg :=
  vs.foldl StddevAgg.step a

/-- Result of ValueFloat: either the float64 NaN or a real value. -/
inductive FloatValue where
  | nan : FloatValue
  | val (x : ℝ) : FloatValue

/-- StddevAgg.ValueFloat: NaN when n < 2, else sqrt(m2 / (n-1)). -/
noncomputable def StddevAgg.ValueFloat (a : StddevAgg) : FloatValue :=
  if a.n < 2 then FloatValue.nan
  else FloatValue.val (Real.sqrt ((a.m2 : ℝ) / ((a.n : ℝ) - 1)))

theorem StddevAgg.doFloat_append (a : StddevAgg) (xs : List ℚ) (x : ℚ) :
    a.DoFloat (xs ++ [x]) = (a.DoFloat xs).step x := by
  simp [StddevAgg.DoFloat, List.foldl_append]

theorem StddevAgg.n_doFloat (a : StddevAgg) (xs : List ℚ) :
    (a.DoFloat xs).n = a.n + xs.length := by
  induction xs generalizing a with
  | nil => simp [StddevAgg.DoFloat]
  | cons x xs ih =>
    simp only [StddevAgg.DoFloat, List.foldl_cons] at *
    rw [ih]
    simp [StddevAgg.step]
    ring

/-- Welford invariant: after folding a non-empty xs from the reset state,
n is the length, mean is the arithmetic mean, and m2 is
Σ x_i^2 - (Σ x_i)^2 / n. -/
theorem StddevAgg.doFloat_invariant (xs : List ℚ) (hne : xs ≠ []) :
    (StddevAgg.reset.DoFloat xs).n = xs.length ∧
    (StddevAgg.reset.DoFloat xs).mean = xs.sum / xs.length ∧
    (StddevAgg.reset.DoFloat xs).m2 =
      (xs.map (fun x => x ^ 2)).sum - xs.sum ^ 2 / xs.length := by
  induction xs using List.reverseRecOn with
  | nil => exact absurd rfl hne
  | append_singleton l x ih =>
    rcases eq_or_ne l [] with hl | hl
    · subst hl
      norm_num [StddevAgg.DoFloat, StddevAgg.step, StddevAgg.reset]
    · obtain ⟨hn, hmean, hm2⟩ := ih hl
      have hlen : (0 : ℚ) < l.length := by
        have := List.length_pos.mpr hl
        exact_mod_cast this
      have hlen0 : (l.length : ℚ) ≠ 0 := ne_of_gt hlen
      have hlen1 : (l.length : ℚ) + 1 ≠ 0 := by positivity
      rw [StddevAgg.doFloat_append]
      refine ⟨?_, ?_, ?_⟩
      · simp [StddevAgg.step, hn]
      · simp only [StddevAgg.step, hn, hmean]
        field_simp
        ring
      · simp only [StddevAgg.step, hn, hmean, hm2]
        field_simp
        ring

theorem sum_sq_dev (xs : List ℚ) (mu : ℚ) :
    (xs.map (fun x => (x - mu) ^ 2)).sum =
      (xs.map (fun x => x ^ 2)).sum - 2 * mu * xs.sum + xs.length * mu ^ 2 := by
  induction xs with
  | nil => simp
  | cons x xs ih =>
    simp only [List.map_cons, List.sum_cons, List.length_cons, ih]
    push_cast
    ring

theorem sum_sq_dev_nonneg (xs : List ℚ) (mu : ℚ) :
    0 ≤ (xs.map (fun x => (x - mu) ^ 2)).sum := by
  apply List.sum_nonneg
  intro a ha
  obtain ⟨x, _, rfl⟩ := List.mem_map.mp ha
  positivity

/-- The property claimed of the stddev aggregate on inputs of length at
least two: ValueFloat is the real branch, the value equals
sqrt(m2 / (n-1)), and stddev^2 * (n-1) equals the sum of squared
deviations from the mean exactly, hence within 1e-9 relative error. -/
def WelfordSpec (xs : List ℚ) : Prop :=
  ∃ v : ℝ,
    (StddevAgg.reset.DoFloat xs).ValueFloat = FloatValue.val v ∧
    v = Real.sqrt (((StddevAgg.reset.DoFloat xs).m2 : ℝ) / ((xs.length : ℝ) - 1)) ∧
    v ^ 2 * ((xs.length : ℝ) - 1) =
      (((xs.map (fun x => (x - xs.sum / xs.length) ^ 2)).sum : ℚ) : ℝ) ∧
    |v ^ 2 * ((xs.length : ℝ) - 1) -
        (((xs.map (fun x => (x - xs.sum / xs.length) ^ 2)).sum : ℚ) : ℝ)| ≤
      (1 / 10 ^ 9) * |(((xs.map (fun x => (x - xs.sum / xs.length) ^ 2)).sum : ℚ) : ℝ)|

theorem m2_eq_sum_sq_dev (xs : List ℚ) (hne : xs ≠ []) :
    (StddevAgg.reset.DoFloat xs).m2 =
      (xs.map (fun x => (x - xs.sum / xs.length) ^ 2)).sum := by
  obtain ⟨_, _, hm2⟩ := StddevAgg.doFloat_invariant xs hne
  have hlen : (0 : ℚ) < xs.length := by
    exact_mod_cast List.length_pos.mpr hne
  rw [hm2, sum_sq_dev]
  field_simp
  ring

/-- C5: a stddev aggregation that consumes fewer than two values — the
empty input and the single-value input — reports NaN from ValueFloat. -/
theorem stddev_lt_two_values_nan :
    (StddevAgg.reset.DoFloat []).ValueFloat = FloatValue.nan ∧
    ∀ x : ℚ, (StddevAgg.reset.DoFloat [x]).ValueFloat = FloatValue.nan := by
  constructor
  · simp [StddevAgg.DoFloat, StddevAgg.reset, StddevAgg.ValueFloat]
  · intro x
    simp [StddevAgg.DoFloat, StddevAgg.reset, StddevAgg.step, StddevAgg.ValueFloat]

/-- C6: for a slice with at least two elements fed to a fresh accumulator
through the Welford recurrence of DoFloat, the reported value is
sqrt(m2 / (n-1)) and satisfies stddev(xs)^2 * (n-1) = Σ (x_i - mean)^2,
in particular within 1e-9 relative error. -/
theorem stddev_welford (xs : List ℚ) (h2 : 2 ≤ xs.length) : WelfordSpec xs := by
  have hne : xs ≠ [] := by
    intro h
    rw [h] at h2
    simp at h2
  obtain ⟨hn, -, -⟩ := StddevAgg.doFloat_invariant xs hne
  have hm2 := m2_eq_sum_sq_dev xs hne
  have hSnn : (0 : ℚ) ≤ (xs.map (fun x => (x - xs.sum / xs.length) ^ 2)).sum :=
    sum_sq_dev_nonneg xs _
  have h2Q : (2 : ℚ) ≤ (xs.length : ℚ) := by exact_mod_cast h2
  have hnlt : ¬ (StddevAgg.reset.DoFloat xs).n < 2 := by
    rw [hn]
    exact not_lt.mpr h2Q
  have h2R : (2 : ℝ) ≤ (xs.length : ℝ) := by exact_mod_cast h2
  have hn1pos : (0 : ℝ) < (xs.length : ℝ) - 1 := by linarith
  have hcastn : (((StddevAgg.reset.DoFloat xs).n : ℚ) : ℝ) = (xs.length : ℝ) := by
    rw [hn]
    push_cast
    ring
  have hm2nn : (0 : ℝ) ≤ ((StddevAgg.reset.DoFloat xs).m2 : ℝ) := by
    rw [hm2]
    exact_mod_cast hSnn
  have hdivnn : (0 : ℝ) ≤ ((StddevAgg.reset.DoFloat xs).m2 : ℝ) / ((xs.length : ℝ) - 1) :=
    div_nonneg hm2nn (le_of_lt hn1pos)
  refine ⟨Real.sqrt (((StddevAgg.reset.DoFloat xs).m2 : ℝ) / ((xs.length : ℝ) - 1)),
    ?_, rfl, ?_, ?_⟩
  · rw [StddevAgg.ValueFloat, if_neg hnlt, hcastn]
  · rw [Real.sq_sqrt hdivnn, div_mul_cancel₀ _ (ne_of_gt hn1pos), hm2]
  · rw [Real.sq_sqrt hdivnn, div_mul_cancel₀ _ (ne_of_gt hn1pos), hm2]
    simp

/-- Witness for C6 at the concrete input [1, 2, 3]. -/
theorem stddev_welford_witness :
    2 ≤ ([1, 2, 3] : List ℚ).length ∧ WelfordSpec [1, 2, 3] :=
  ⟨by norm_num, stddev_welford [1, 2, 3] (by norm_num)⟩

/-! ## query/execute/source.go — storageSource -/

/-- execute.Window, restricted to the two fields storageSource uses.
Every and Period are time.Duration, Int nanoseconds. -/
structure Window where
  Every : Int
  Period : Int
deriving DecidableEq

/-- execute.Bounds: Start and Stop are execute.Time, Int nanoseconds. -/
structure Bounds where
  Start : Int
  Stop : Int
deriving DecidableEq

/-- Mutable state of storageSource across Next calls: its currentTime. -/
structure SourceState where
  currentTime : Int
deriving DecidableEq

/-- One call a subscriber transformation receives from storageSource.Run,
in order: Process for each block of a batch, UpdateWatermark with the
batch mark, Finish with the error argument (always nil in the source).
UpdateProcessingTime calls carry the wall clock Now() and are not
modelled. -/
inductive SrcEvent (β : Type) where
  | process (b : β) : SrcEvent β
  | watermark (t : Int) : SrcEvent β
  | finish (e : Option String) : SrcEvent β
deriving DecidableEq

/-- storageSource.Next: computes start = currentTime - Period and
stop = currentTime, advances currentTime by Every, returns ok=false when
stop exceeds bounds.Stop, otherwise issues reader.Read(start, stop); a
read error is logged and reported as ok=false.  Returns the batch and
mark (when ok), the new state, and the list of issued read calls. -/
def storageSource.Next {β : Type} (reader : Int → Int → Except String (List β))
    (w : Window) (bounds : Bounds) (st : SourceState) :
    Option (List β × Int) × SourceState × List (Int × Int) :=
  let start := st.currentTime - w.Period
  let stop := st.currentTime
  let st2 : SourceState := ⟨st.currentTime + w.Every⟩
  if bounds.Stop < stop then (none, st2, [])
  else
    match reader start stop with
    | Except.error _ => (none, st2, [(start, stop)])
    | Except.ok bi => (some (bi, stop), st2, [(start, stop)])

/-- storageSource.Run as the trace of calls each subscriber receives,
together with the read calls issued to the StorageReader.  fuel bounds
the number of loop iterations (the Go loop runs unboundedly); when fuel
runs out mid-loop no Finish is recorded. -/
def storageSource.Run {β : Type} (reader : Int → Int → Except String (List β))
    (w : Window) (bounds : Bounds) : SourceState → Nat →
    List (SrcEvent β) × List (Int × Int)
  | _, 0 => ([], [])
  | st, Nat.succ fuel =>
    match storageSource.Next reader w bounds st with
    | (none, _, reads) => ([SrcEvent.finish none], reads)
    | (some (bi, mark), st2, reads) =>
      let rest := storageSource.Run reader w bounds st2 fuel
      (bi.map SrcEvent.process ++ SrcEvent.watermark mark :: rest.1, reads ++ rest.2)

/-- The projection selecting UpdateWatermark calls from an event trace. -/
def wmProj {β : Type} : SrcEvent β → Option Int
  | SrcEvent.watermark t => some t
  | _ => none

/-- The sequence of marks passed to UpdateWatermark during a run. -/
def runMarks {β : Type} (reader : Int → Int → Except String (List β))
    (w : Window) (bounds : Bounds) (st : SourceState) (fuel : Nat) : List Int :=
  (storageSource.Run reader w bounds st fuel).1.filterMap wmProj

theorem storageSource.run_succ {β : Type} (reader : Int → Int → Except String (List β))
    (w : Window) (bounds : Bounds) (st : SourceState) (fuel : Nat) :
    storageSource.Run reader w bounds st (fuel + 1) =
      match storageSource.Next reader w bounds st with
      | (none, _, reads) => ([SrcEvent.finish none], reads)
      | (some (bi, mark), st2, reads) =>
        let rest := storageSource.Run reader w bounds st2 fuel
        (bi.map SrcEvent.process ++ SrcEvent.watermark mark :: rest.1,
          reads ++ rest.2) := rfl

theorem filterMap_wmProj_map_process {β : Type} (bi : List β) :
    List.filterMap wmProj (bi.map SrcEvent.process) = ([] : List Int) := by
  induction bi with
  | nil => rfl
  | cons b bs ih => simp [wmProj, ih]

/-- Shape of storageSource.Next in the successful branch. -/
theorem storageSource.next_some {β : Type} (reader : Int → Int → Except String (List β))
    (w : Window) (bounds : Bounds) (st : SourceState) (bi : List β) (mark : Int)
    (st2 : SourceState) (reads : List (Int × Int))
    (h : storageSource.Next reader w bounds st = (some (bi, mark), st2, reads)) :
    mark = st.currentTime ∧ st2 = ⟨st.currentTime + w.Every⟩ ∧
      st.currentTime ≤ bounds.Stop ∧
      reads = [(st.currentTime - w.Period, st.currentTime)] := by
  unfold storageSource.Next at h
  by_cases hb : bounds.Stop < st.currentTime
  · simp [hb] at h
  · simp [hb] at h
    rcases hr : reader (st.currentTime - w.Period) st.currentTime with e | bi2
    · simp [hr] at h
    · simp [hr] at h
      exact ⟨h.1.2.symm, h.2.1.symm, by omega, h.2.2.symm⟩

theorem runMarks_succ {β : Type} (reader : Int → Int → Except String (List β))
    (w : Window) (bounds : Bounds) (st : SourceState) (fuel : Nat) :
    runMarks reader w bounds st (fuel + 1) =
      match storageSource.Next reader w bounds st with
      | (none, _, _) => []
      | (some (_, mark), st2, _) => mark :: runMarks reader w bounds st2 fuel := by
  unfold runMarks
  rw [storageSource.run_succ]
  rcases h : storageSource.Next reader w bounds st with ⟨o, st2, reads⟩
  rcases o with _ | ⟨bi, mark⟩
  · simp [wmProj]
  · simp [List.filterMap_append, filterMap_wmProj_map_process, wmProj]

theorem runMarks_ge {β : Type} (reader : Int → Int → Except String (List β))
    (w : Window) (bounds : Bounds) (hE : 0 ≤ w.Every) :
    ∀ (fuel : Nat) (st : SourceState) (t : Int),
      t ∈ runMarks reader w bounds st fuel → st.currentTime ≤ t := by
  intro fuel
  induction fuel with
  | zero =>
    intro st t ht
    simp [runMarks, storageSource.Run] at ht
  | succ fuel ih =>
    intro st t ht
    rw [runMarks_succ] at ht
    rcases h : storageSource.Next reader w bounds st with ⟨o, st2, reads⟩
    rcases o with _ | ⟨bi, mark⟩
    · rw [h] at ht
      simp at ht
    · rw [h] at ht
      simp only [List.mem_cons] at ht
      obtain ⟨hmark, hst2, -, -⟩ :=
        storageSource.next_some reader w bounds st bi mark st2 reads h
      rcases ht with rfl | htail
      · exact le_of_eq hmark.symm
      · have := ih st2 t htail
        rw [hst2] at this
        simp at this
        omega

/-- C8: with a non-negative Every, the marks a storage source run passes
to UpdateWatermark on its subscribers form a non-decreasing sequence. -/
theorem storage_watermarks_monotone {β : Type}
    (reader : Int → Int → Except String (List β)) (w : Window) (bounds : Bounds)
    (st : SourceState) (fuel : Nat) (hE : 0 ≤ w.Every) :
    List.Pairwise (fun a b => a ≤ b) (runMarks reader w bounds st fuel) := by
  induction fuel generalizing st with
  | zero =>
    simp [runMarks, storageSource.Run]
  | succ fuel ih =>
    rw [runMarks_succ]
    rcases h : storageSource.Next reader w bounds st with ⟨o, st2, reads⟩
    rcases o with _ | ⟨bi, mark⟩
    · exact List.Pairwise.nil
    · obtain ⟨hmark, hst2, -, -⟩ :=
        storageSource.next_some reader w bounds st bi mark st2 reads h
      refine List.pairwise_cons.mpr ⟨?_, ih st2⟩
      intro b hb
      have hb2 := runMarks_ge reader w bounds hE fuel st2 b hb
      rw [hst2] at hb2
      simp at hb2
      omega

/-- Witness for C8: a concrete run with Every = 10 produces marks
[5, 15, 25], a non-decreasing sequence. -/
theorem storage_watermarks_monotone_witness :
    (0 : Int) ≤ (10 : Int) ∧
      List.Pairwise (fun a b => a ≤ b)
        (runMarks (fun _ _ => Except.ok [()]) ⟨10, 10⟩ ⟨0, 25⟩ ⟨5⟩ 5) :=
  ⟨by decide,
    storage_watermarks_monotone (fun _ _ => Except.ok [()]) ⟨10, 10⟩ ⟨0, 25⟩ ⟨5⟩ 5
      (by decide)⟩

/-- Every read call a single Next issues has stop at most bounds.Stop. -/
theorem storageSource.next_reads {β : Type}
    (reader : Int → Int → Except String (List β)) (w : Window) (bounds : Bounds)
    (st : SourceState) :
    ∀ p ∈ (storageSource.Next reader w bounds st).2.2, p.2 ≤ bounds.Stop := by
  intro p hp
  unfold storageSource.Next at hp
  by_cases hb : bounds.Stop < st.currentTime
  · simp [hb] at hp
  · simp only [if_neg hb] at hp
    rcases hr : reader (st.currentTime - w.Period) st.currentTime with e | bi
    all_goals rw [hr] at hp
    all_goals simp at hp
    all_goals rw [hp]
    all_goals simpa using not_lt.mp hb

/-- C9: every read call the storage source issues to StorageReader.Read
requests a stop time at most bounds.Stop: the guard in Next returns
ok=false before any read whose stop would exceed the bounds. -/
theorem storage_reads_within_bounds {β : Type}
    (reader : Int → Int → Except String (List β)) (w : Window) (bounds : Bounds)
    (st : SourceState) (fuel : Nat) :
    ∀ p ∈ (storageSource.Run reader w bounds st fuel).2, p.2 ≤ bounds.Stop := by
  induction fuel generalizing st with
  | zero =>
    intro p hp
    simp [storageSource.Run] at hp
  | succ fuel ih =>
    intro p hp
    rw [storageSource.run_succ] at hp
    rcases h : storageSource.Next reader w bounds st with ⟨o, st2, reads⟩
    have hreads : ∀ q ∈ reads, q.2 ≤ bounds.Stop := by
      intro q hq
      apply storageSource.next_reads reader w bounds st
      rw [h]
      exact hq
    rcases o with _ | ⟨bi, mark⟩
    all_goals rw [h] at hp
    · apply hreads p
      simpa using hp
    · simp only [List.mem_append] at hp
      rcases hp with hin | hin
      · exact hreads p hin
      · exact ih st2 p hin

/-- Witness for C9: in the concrete run of the C8 witness, the read call
with stop 25 is within the bounds stop 25. -/
theorem storage_reads_within_bounds_witness :
    ((15 : Int), (25 : Int)) ∈
        (storageSource.Run (fun _ _ => Except.ok [()]) ⟨10, 10⟩ ⟨0, 25⟩
          (⟨5⟩ : SourceState) 5).2 ∧
      ((15 : Int), (25 : Int)).2 ≤ (25 : Int) :=
  ⟨by decide,
    storage_reads_within_bounds (fun _ _ => Except.ok [()]) ⟨10, 10⟩ ⟨0, 25⟩ ⟨5⟩ 5
      (15, 25) (by decide)⟩

/-- C4: when StorageReader.Read fails on the first window (an error
"boom" with stop 5 within bounds stop 100), the source does stop pulling
batches — exactly one read is issued — but Run then calls Finish with
nil on its subscribers: the reader error is logged and dropped, not
propagated. -/
theorem storage_read_error_finishes_nil :
    storageSource.Run (fun _ _ => (Except.error "boom" : Except String (List Unit)))
        ⟨10, 10⟩ ⟨0, 100⟩ ⟨5⟩ 4 =
      ([SrcEvent.finish none], [(-5, 5)]) := by
  decide

/-! ## functions: the toHTTP sink -/

/-- DefaultToHTTPTimeout = 1 * time.Second, in nanoseconds. -/
def DefaultToHTTPTimeout : Int := 1000000000

/-- DefaultToHTTPUserAgent. -/
def DefaultToHTTPUserAgent : String := "ifqld/dev"

/-- execute.DefaultTimeColLabel. -/
def DefaultTimeColLabel : String := "_time"

/-- execute.DefaultValueColLabel. -/
def DefaultValueColLabel : String := "_value"

/-- ToHTTPOpSpec: the parse-time description of a toHTTP operation.
Headers is an association list; Timeout is time.Duration (Int ns). -/
structure ToHTTPOpSpec where
  Addr : String
  Method : String
  Name : String
  Headers : List (String × String)
  Timeout : Int
  NoKeepAlive : Bool
  TimeColumn : String
  TagColumns : List String
  ValueColumns : List String
deriving DecidableEq

/-- The zero value of ToHTTPOpSpec, as produced by new(ToHTTPOpSpec). -/
def ToHTTPOpSpec.zero : ToHTTPOpSpec :=
  ⟨"", "", "", [], 0, false, "", [], []⟩

/-- The query.Arguments a toHTTP call site supplies, restricted to the
keys ReadArgs reads; none means the argument is absent (ok = false).
Arguments of the wrong type (a GetString error and so on) are outside
the model: each key is already at its Go type. -/
structure Arguments where
  addr : Option String
  name : Option String
  method : Option String
  timeout : Option Int
  time_column : Option String
  tag_columns : Option (List String)
  value_columns : Option (List String)

/-- Go string order on the character lists, lexicographic by scalar
value (byte order in Go; identical on the ASCII labels involved). -/
def strListLt : List Char → List Char → Bool
  | [], [] => false
  | [], _ :: _ => true
  | _ :: _, [] => false
  | a :: as, b :: bs =>
    if a.val < b.val then true
    else if b.val < a.val then false
    else strListLt as bs

/-- The order sort.Strings and sort.SearchStrings compare with. -/
def strLe (a b : String) : Bool := !(strListLt b.data a.data)

/-- Insertion of a string into a sorted list, ascending. -/
def insertStr (x : String) : List String → List String
  | [] => [x]
  | y :: ys => if strLe x y then x :: y :: ys else y :: insertStr x ys

/-- sort.Strings: ascending insertion sort over the list model. -/
def sortStrings (l : List String) : List String := l.foldr insertStr []

/-- ToHTTPOpSpec.ReadArgs translated statement by statement, including
the original assignment o.TagColumns = append(o.ValueColumns, ...) in the
value_columns loop.  Go slice truncation s[:0] is the empty list and
append is concatenation, so each loop iteration rebuilds the assigned
list from the (empty) truncated receiver. -/
def ToHTTPOpSpec.ReadArgs (o : ToHTTPOpSpec) (args : Arguments) :
    Except String ToHTTPOpSpec :=
  match args.addr with
  | none => Except.error "missing required keyword argument addr"
  | some addr =>
    match args.name with
    | none => Except.error "missing required keyword argument name"
    | some name =>
      let method :=
        match args.method with
        | none => "POST"
        | some m => m
      let method := method.toUpper
      let timeout :=
        match args.timeout with
        | none => DefaultToHTTPTimeout
        | some t => t
      let timeColumn :=
        match args.time_column with
        | none => DefaultTimeColLabel
        | some c => c
      let tagCols0 : List String := []
      let tagCols :=
        match args.tag_columns with
        | none => tagCols0
        | some ts => sortStrings (ts.foldl (fun acc s => acc ++ [s]) tagCols0)
      let valCols0 : List String := []
      let cols :=
        match args.value_columns with
        | none => (tagCols, valCols0 ++ [DefaultValueColLabel])
        | some vs =>
          if vs.length == 0 then (tagCols, valCols0 ++ [DefaultValueColLabel])
          else (sortStrings (vs.foldl (fun _acc s => valCols0 ++ [s]) tagCols), valCols0)
      Except.ok
        { Addr := addr
          Method := method
          Name := name
          Headers := [("Content-Type", "application/vnd.influx"),
                      ("User-Agent", DefaultToHTTPUserAgent)]
          Timeout := timeout
          NoKeepAlive := o.NoKeepAlive
          TimeColumn := timeColumn
          TagColumns := cols.1
          ValueColumns := cols.2 }

/-- net/url URL, restricted to the scheme field the validator reads. -/
structure GoURL where
  scheme : String
deriving DecidableEq

/-- ToHTTPOpSpec.UnmarshalJSON over an abstract json.Unmarshal
(jsonDecode, none = decode error) and an abstract url.ParseRequestURI
(parseRequestURI, none = parse error): decode, parse Addr, then require
a scheme of https, http or the empty string. -/
def ToHTTPOpSpec.UnmarshalJSON (jsonDecode : String → Option ToHTTPOpSpec)
    (parseRequestURI : String → Option GoURL) (b : String) :
    Except String ToHTTPOpSpec :=
  match jsonDecode b with
  | none => Except.error "json unmarshal error"
  | some o =>
    match parseRequestURI o.Addr with
    | none => Except.error "url parse error"
    | some u =>
      if u.scheme == "https" || u.scheme == "http" || u.scheme == "" then
        Except.ok o
      else
        Except.error ("Scheme must be http or https but was " ++ u.scheme)

/-- execute.DataType, the column types Process switches over. -/
inductive DataType where
  | TBool | TInt | TUInt | TFloat | TString | TTime
deriving DecidableEq

/-- execute.ColMeta: column label and type.  The Go field is named Type,
a keyword here, so it is spelled Typ. -/
structure GoCol where
  Label : String
  Typ : DataType
deriving DecidableEq

/-- The typed backing array of one column of a ColReader; float64 values
idealized as ℚ, times as Int nanoseconds. -/
inductive ColData where
  | bools (vs : List Bool)
  | ints (vs : List Int)
  | uints (vs : List Nat)
  | floats (vs : List ℚ)
  | strs (vs : List String)
  | times (vs : List Int)
deriving DecidableEq

/-- Number of rows held by a column buffer. -/
def ColData.size : ColData → Nat
  | ColData.bools vs => vs.length
  | ColData.ints vs => vs.length
  | ColData.uints vs => vs.length
  | ColData.floats vs => vs.length
  | ColData.strs vs => vs.length
  | ColData.times vs => vs.length

/-- One ColReader chunk handed to the b.Do callback: its columns with
their data, in column order. -/
def Chunk : Type := List (GoCol × ColData)

/-- execute.Block as Process consumes it: the block-level column
metadata (b.Cols) and the ColReader chunks b.Do iterates. -/
structure GoBlock where
  cols : List GoCol
  chunks : List Chunk

/-- Rows of a chunk: the length of its first column buffer. -/
def chunkRows (c : Chunk) : Nat :=
  match c with
  | [] => 0
  | p :: _ => p.2.size

/-- Total rows of a block across its chunks. -/
def GoBlock.rows (b : GoBlock) : Nat :=
  (b.chunks.map chunkRows).sum

/-- The loop of Go sort.Search on the half-open interval [i, j): binary
search for the smallest index satisfying f.  fuel bounds the iteration
count; the interval shrinks every step, so any fuel of at least j - i
iterations computes the exact Go result. -/
def goSearchLoop (f : Nat → Bool) : Nat → Nat → Nat → Nat
  | 0, i, _ => i
  | Nat.succ fuel, i, j =>
    if i < j then
      let m := (i + j) / 2
      if f m then goSearchLoop f fuel i m else goSearchLoop f fuel (m + 1) j
    else i

/-- sort.SearchStrings(a, x): smallest index whose element is at least x,
a.length when there is none.  Process uses searchStrings a x < a.length
as its (incomplete) membership test. -/
def searchStrings (a : List String) (x : String) : Nat :=
  goSearchLoop (fun h => strLe x (a.getD h "")) (a.length + 1) 0 a.length

/-- Field values of the line-protocol encoder, tagged by column type. -/
inductive FieldValue where
  | f (q : ℚ)
  | i (n : Int)
  | u (n : Nat)
  | s (v : String)
  | t (v : Int)
  | b (v : Bool)
deriving DecidableEq

/-- er.Times(i)[0] — first element, provided the buffer is of time type
and non-empty (a Go panic otherwise, modelled as none). -/
def firstTime : ColData → Option Int
  | ColData.times vs => vs.head?
  | _ => none

/-- er.Strings(i)[0] for the tag branch. -/
def firstStr : ColData → Option String
  | ColData.strs vs => vs.head?
  | _ => none

/-- The value-branch switch of Process on col.Type, reading index [0] of
the matching typed accessor. -/
def firstValue : DataType → ColData → Option FieldValue
  | DataType.TFloat, ColData.floats vs => vs.head?.map FieldValue.f
  | DataType.TInt, ColData.ints vs => vs.head?.map FieldValue.i
  | DataType.TUInt, ColData.uints vs => vs.head?.map FieldValue.u
  | DataType.TString, ColData.strs vs => vs.head?.map FieldValue.s
  | DataType.TTime, ColData.times vs => vs.head?.map FieldValue.t
  | DataType.TBool, ColData.bools vs => vs.head?.map FieldValue.b
  | _, _ => none

/-- One line-protocol record as handed to protocol.Encoder.Encode: the
httpOutputMetric at encode time. -/
structure Metric where
  name : String
  time : Option Int
  tags : List (String × String)
  fields : List (String × FieldValue)
deriving DecidableEq

/-- The per-column body of the loop over er.Cols() in Process: the time
column sets m.t, then the ValueColumns search decides the field branch,
then the TagColumns search decides the tag branch; other columns are
skipped.  State is (m.t, m.tags, m.fields); none is a Go panic from an
out-of-range or wrongly typed index [0] access. -/
def metricStep (spec : ToHTTPOpSpec)
    (st : Option Int × List (String × String) × List (String × FieldValue))
    (cd : GoCol × ColData) :
    Option (Option Int × List (String × String) × List (String × FieldValue)) :=
  let t := st.1
  let tags := st.2.1
  let fields := st.2.2
  let col := cd.1
  let data := cd.2
  if col.Label == spec.TimeColumn then
    match firstTime data with
    | none => none
    | some tv => some (some tv, tags, fields)
  else if searchStrings spec.ValueColumns col.Label < spec.ValueColumns.length then
    match firstValue col.Typ data with
    | none => none
    | some fv => some (t, tags, fields ++ [(col.Label, fv)])
  else if searchStrings spec.TagColumns col.Label < spec.TagColumns.length then
    match firstStr data with
    | none => none
    | some sv => some (t, tags ++ [(col.Label, sv)], fields)
  else
    some (t, tags, fields)

/-- The b.Do loop of Process: per chunk, truncate tags and fields, run
the column loop, then Encode emits exactly one record.  m.t persists
across chunks (the metric is allocated once). -/
def processChunks (spec : ToHTTPOpSpec) (name : String) :
    Option Int → List Chunk → Option (List Metric)
  | _, [] => some []
  | tPrev, c :: cs =>
    match c.foldlM (metricStep spec) (tPrev, [], []) with
    | none => none
    | some (t, tags, fields) =>
      match processChunks spec name t cs with
      | none => none
      | some ms => some ({ name := name, time := t, tags := tags,
                           fields := fields } :: ms)

/-- The encoding half of ToHTTPTransformation.Process: resolve the time
column in b.Cols (error when missing or not TTime), then encode one
record per ColReader chunk into the request body. -/
def ToHTTPProcessEncode (spec : ToHTTPOpSpec) (b : GoBlock) :
    Except String (List Metric) :=
  match b.cols.foldl
      (fun acc c => if c.Label == spec.TimeColumn then some c.Typ else acc)
      none with
  | none => Except.error "Could not get time column"
  | some ty =>
    if ty = DataType.TTime then
      match processChunks spec spec.Name none b.chunks with
      | none => Except.error "panic in encode goroutine"
      | some ms => Except.ok ms
    else
      Except.error "column is not of type time"

/-- net/http response, restricted to what the sink could inspect. -/
structure GoResponse where
  status : Nat
  body : String
deriving DecidableEq

/-- ToHTTPTransformation.Process end to end: encode the block, send the
request through the client (doRequest, applied to method and addr; an
error is a transport failure), then close the bodies and return.  The
response status and body are never inspected: a delivered response of
any status yields ok. -/
def ToHTTPProcess (spec : ToHTTPOpSpec)
    (doRequest : String → String → Except String GoResponse) (b : GoBlock) :
    Except String Unit :=
  match ToHTTPProcessEncode spec b with
  | Except.error e => Except.error e
  | Except.ok _ms =>
    match doRequest spec.Method spec.Addr with
    | Except.error e => Except.error e
    | Except.ok _resp => Except.ok ()

/-- A toHTTP call with the two required arguments and nothing else. -/
def argsBase : Arguments :=
  ⟨some "http://localhost:8080", some "m", none, none, none, none, none⟩

/-- C1 (code bug): ReadArgs does default an absent timeout to 1s, but a
supplied timeout of 0 is stored as 0 (not the default) and a supplied
negative timeout is stored unchanged with no error, so an OpSpec with a
non-positive timeout is constructed; Process then arms a context whose
deadline is that non-positive duration. -/
theorem toHTTP_timeout_not_validated :
    (ToHTTPOpSpec.zero.ReadArgs argsBase).map ToHTTPOpSpec.Timeout =
        Except.ok DefaultToHTTPTimeout ∧
    (ToHTTPOpSpec.zero.ReadArgs
          { argsBase with timeout := some 0 }).map ToHTTPOpSpec.Timeout =
        Except.ok 0 ∧
    (ToHTTPOpSpec.zero.ReadArgs
          { argsBase with timeout := some (-5) }).map ToHTTPOpSpec.Timeout =
        Except.ok (-5) := by
  refine ⟨rfl, rfl, rfl⟩

/-- The C2 failing input: explicit tag_columns and two value_columns. -/
def argsC2 : Arguments :=
  { argsBase with tag_columns := some ["host"], value_columns := some ["vA", "vB"] }

/-- C2 (code bug): with tag_columns ["host"] and value_columns
["vA", "vB"], ReadArgs leaves ValueColumns empty and overwrites
TagColumns with just the last supplied value column, because the loop
assigns append(o.ValueColumns, v) to o.TagColumns. -/
theorem toHTTP_value_columns_swapped :
    (ToHTTPOpSpec.zero.ReadArgs argsC2).map ToHTTPOpSpec.ValueColumns =
        Except.ok [] ∧
    (ToHTTPOpSpec.zero.ReadArgs argsC2).map ToHTTPOpSpec.TagColumns =
        Except.ok ["vB"] := by
  refine ⟨rfl, rfl⟩

/-- The OpSpec the other toHTTP theorems run with: defaults plus tag
column t1, as in scenario S6 of the spec. -/
def specHTTP : ToHTTPOpSpec :=
  { Addr := "http://localhost:8080"
    Method := "POST"
    Name := "m"
    Headers := [("Content-Type", "application/vnd.influx"),
                ("User-Agent", DefaultToHTTPUserAgent)]
    Timeout := DefaultToHTTPTimeout
    NoKeepAlive := false
    TimeColumn := DefaultTimeColLabel
    TagColumns := ["t1"]
    ValueColumns := [DefaultValueColLabel] }

/-- A block with one ColReader chunk holding two rows (times 1s and 2s,
tags a and b, values 2 and 7) — the shape of scenario S6 of the spec. -/
def blkTwoRows : GoBlock :=
  { cols := [⟨"_time", DataType.TTime⟩, ⟨"t1", DataType.TString⟩,
             ⟨"_value", DataType.TFloat⟩]
    chunks := [[(⟨"_time", DataType.TTime⟩, ColData.times [1000000000, 2000000000]),
                (⟨"t1", DataType.TString⟩, ColData.strs ["a", "b"]),
                (⟨"_value", DataType.TFloat⟩, ColData.floats [2, 7])]] }

/-- C7 (code bug): on the two-row block, Process encodes exactly one
record — the one built from index [0] of every column — although the
block has two rows; the second row is never encoded. -/
theorem toHTTP_encodes_one_record_per_chunk :
    ToHTTPProcessEncode specHTTP blkTwoRows =
        Except.ok [{ name := "m", time := some 1000000000,
                     tags := [("t1", "a")],
                     fields := [("_value", FieldValue.f 2)] }] ∧
    GoBlock.rows blkTwoRows = 2 := by
  refine ⟨by decide, rfl⟩

/-- C3 (code bug): delivering a response with status 500 and body "boom"
makes Process return nil — success.  The response status and body are
never read, so no error carrying them can reach Finish. -/
theorem toHTTP_ignores_response_status :
    ToHTTPProcess specHTTP (fun _ _ => Except.ok ⟨500, "boom"⟩) blkTwoRows =
      Except.ok () := by
  decide

/-- C10: UnmarshalJSON errors whenever the addr does not parse as a
request URI or parses with a scheme other than https, http or the empty
string, and on success the Addr of the returned spec parses with one of
those three schemes. -/
theorem unmarshalJSON_validates_scheme (dec : String → Option ToHTTPOpSpec)
    (parse : String → Option GoURL) (b : String) :
    (∀ o, ToHTTPOpSpec.UnmarshalJSON dec parse b = Except.ok o →
      ∃ u, parse o.Addr = some u ∧
        (u.scheme = "https" ∨ u.scheme = "http" ∨ u.scheme = "")) ∧
    (∀ o, dec b = some o →
      (parse o.Addr = none ∨
        ∀ u, parse o.Addr = some u →
          u.scheme ≠ "https" ∧ u.scheme ≠ "http" ∧ u.scheme ≠ "") →
      ∃ e, ToHTTPOpSpec.UnmarshalJSON dec parse b = Except.error e) := by
  constructor
  · intro o h
    rcases hdec : dec b with _ | o2
    · simp [ToHTTPOpSpec.UnmarshalJSON, hdec] at h
    · rcases hp : parse o2.Addr with _ | u
      · simp [ToHTTPOpSpec.UnmarshalJSON, hdec, hp] at h
      · by_cases hs : (u.scheme == "https" || u.scheme == "http" || u.scheme == "") = true
        · have ho : o2 = o := by
            simp [ToHTTPOpSpec.UnmarshalJSON, hdec, hp, hs] at h
            exact h
          subst ho
          refine ⟨u, hp, ?_⟩
          simpa [or_assoc] using hs
        · simp [ToHTTPOpSpec.UnmarshalJSON, hdec, hp, hs] at h
  · intro o hdec hbad
    rcases hp : parse o.Addr with _ | u
    · refine ⟨"url parse error", ?_⟩
      simp [ToHTTPOpSpec.UnmarshalJSON, hdec, hp]
    · rcases hbad with hnone | hall
      · rw [hp] at hnone
        exact absurd hnone (by simp)
      · obtain ⟨h1, h2, h3⟩ := hall u hp
        refine ⟨"Scheme must be http or https but was " ++ u.scheme, ?_⟩
        simp [ToHTTPOpSpec.UnmarshalJSON, hdec, hp, h1, h2, h3]

/-- The decoded spec of the C10 witness. -/
def specW : ToHTTPOpSpec := { ToHTTPOpSpec.zero with Addr := "http://localhost:8080" }

/-- A json.Unmarshal that always yields specW. -/
def decW : String → Option ToHTTPOpSpec := fun _ => some specW

/-- A url.ParseRequestURI recognizing only the witness address, with
scheme http. -/
def parseW : String → Option GoURL :=
  fun s => if s == "http://localhost:8080" then some ⟨"http"⟩ else none

/-- Witness for C10: on the concrete decoder and parser, UnmarshalJSON
succeeds and the returned Addr parses with scheme http. -/
theorem unmarshalJSON_validates_scheme_witness :
    ToHTTPOpSpec.UnmarshalJSON decW parseW "input" = Except.ok specW ∧
    ∃ u, parseW specW.Addr = some u ∧
      (u.scheme = "https" ∨ u.scheme = "http" ∨ u.scheme = "") :=
  ⟨by decide,
    (unmarshalJSON_validates_scheme decW parseW "input").1 specW (by decide)⟩

end Ifql
